import Mathlib

/-!
Verification development for the text-perturbation transform of
`part-1-code/utils.py` (function `custom_transform` and its helpers).

Modelling conventions (shallow embedding):

* A Python string is modelled as `Word := List Char` (ASCII-oriented:
  `str.isalpha` / `str.isupper` are modelled with `Char.isAlpha` /
  `Char.isUpper`, which agree with Python on ASCII text).
* The global pseudo-random generator (`random` module, seeded once at
  module-load time by `random.seed(0)`) is modelled as an explicit stream of
  uniform draws `RNG := List ℚ`, each element standing for one value of
  `random.random()` in `[0, 1)`; an exhausted stream yields `0`.
  `random.choice(seq)` is modelled as consuming one draw `q` and indexing
  the sequence at `⌊q * len seq⌋`, which is uniform when `q` is uniform.
* Fallible operations (string indexing `word[pos]`, `random.choice` on an
  empty sequence) are modelled in `Option`: `none` is a raised exception.
  Every function that can reach such an operation returns `Option`.
* External collaborators (NLTK word tokenizer, Treebank detokenizer,
  WordNet lemma lookup, the English stopword set) are parameters of the
  embedded functions; the repository's own logic (filters, sorting,
  probabilities, case matching, typo construction) is transcribed from
  the source.
* The float literals `0.5` and `0.2` of the source are modelled as the
  rationals `1/2` and `1/5`.  (`0.5` is exact in binary; no 53-bit
  multiple of `2^-53` lies strictly between `1/5` and the double nearest
  to `0.2`, so the comparison `random.random() < 0.2` agrees with the
  exact rational comparison on every value `random.random()` can return.)
-/

abbrev Word : Type := List Char

abbrev RNG : Type := List ℚ

/-- One call of `random.random()`: pop the next uniform draw. -/
def randFloat (g : RNG) : ℚ × RNG := (g.headD 0, g.tail)

/-- The index `⌊q * n⌋` of a uniform choice among `n` alternatives driven
by the draw `q`: for `0 ≤ q` the floor of `q * n` is exactly
`q.num.toNat * n / q.den` (integer operations, so that the definition
evaluates inside the kernel). -/
def drawIndex (q : ℚ) (n : Nat) : Nat := q.num.toNat * n / q.den

/-- One call of `random.choice(l)`: consume a draw `q` and pick the element
at index `⌊q * |l|⌋`; `none` models the `IndexError` Python raises on an
empty sequence (an out-of-range index is impossible for draws in `[0,1)`). -/
def randChoice {α : Type} (l : List α) (g : RNG) : Option (α × RNG) :=
  if h : drawIndex (g.headD 0) l.length < l.length then
    some (l.get ⟨_, h⟩, g.tail) else none

/-- The draws a real `random.random()` stream can contain: values in `[0,1)`. -/
def validRNG (g : RNG) : Prop := ∀ q ∈ g, 0 ≤ q ∧ q < 1

/-- `s.lower()` (ASCII). -/
def pyLower (w : Word) : Word := w.map Char.toLower

/-- `s.upper()` (ASCII). -/
def pyUpper (w : Word) : Word := w.map Char.toUpper

/-- `s.isalpha()`: non-empty and every character alphabetic. -/
def pyIsAlpha (w : Word) : Bool := !w.isEmpty && w.all Char.isAlpha

/-- `s.isupper()`: at least one cased character and no lowercase cased
character (cased is modelled as alphabetic, as for ASCII). -/
def pyIsUpper (w : Word) : Bool :=
  w.any Char.isAlpha && w.all (fun c => !c.isAlpha || c.isUpper)

/-- `s.capitalize()`: first character uppercased, the rest lowercased. -/
def pyCapitalize (w : Word) : Word :=
  match w with
  | [] => []
  | c :: cs => c.toUpper :: cs.map Char.toLower

/-- `s.replace("_", " ")` (single-character pattern case of `str.replace`). -/
def underscoreToSpace (w : Word) : Word :=
  w.map (fun c => if c = '_' then ' ' else c)

/-- `str.replace(pat, rep)` for a non-empty pattern, fuel-indexed so that it
reduces definitionally (fuel `s.length` always suffices: each step consumes
at least one character). -/
def pyReplaceAux (pat rep : Word) : Nat → Word → Word
  | _, [] => []
  | 0, s => s
  | fuel + 1, c :: rest =>
    if pat.isPrefixOf (c :: rest) && !pat.isEmpty then
      rep ++ pyReplaceAux pat rep fuel (rest.drop (pat.length - 1))
    else
      c :: pyReplaceAux pat rep fuel rest

/-- `s.replace(pat, rep)` (used in the source only with the two-character
patterns " ,", " .", " !", " ?"). -/
def pyReplace (pat rep s : Word) : Word := pyReplaceAux pat rep s.length s

/-- The `QWERTY_NEIGHBORS` dictionary of `utils.py`; `none` models a key
that is absent (`dict.get` returning `None`). -/
def QWERTY_NEIGHBORS (c : Char) : Option (List Char) :=
  match c with
  | 'q' => some ['w']
  | 'w' => some ['q', 'e', 's']
  | 'e' => some ['w', 'r', 'd']
  | 'r' => some ['e', 't', 'f']
  | 't' => some ['r', 'y', 'g']
  | 'y' => some ['t', 'u', 'h']
  | 'u' => some ['y', 'i', 'j']
  | 'i' => some ['u', 'o', 'j']
  | 'o' => some ['i', 'p', 'k']
  | 'p' => some ['o']
  | 'a' => some ['s', 'q', 'w', 'z']
  | 's' => some ['a', 'w', 'e', 'd', 'x', 'z']
  | 'd' => some ['s', 'e', 'r', 'f', 'c', 'x']
  | 'f' => some ['d', 'r', 't', 'g', 'v']
  | 'g' => some ['f', 't', 'y', 'h', 'b']
  | 'h' => some ['g', 'y', 'u', 'j', 'n']
  | 'j' => some ['h', 'u', 'i', 'k', 'm']
  | 'k' => some ['j', 'i', 'o', 'l']
  | 'l' => some ['k', 'o', 'p']
  | 'z' => some ['a', 's', 'x']
  | 'x' => some ['z', 's', 'd', 'c']
  | 'c' => some ['x', 'd', 'f', 'v']
  | 'v' => some ['c', 'f', 'g', 'b']
  | 'b' => some ['v', 'g', 'h', 'n']
  | 'n' => some ['b', 'h', 'j', 'm']
  | 'm' => some ['n', 'j', 'k']
  | _ => none

/-- The constants configured at the top of `custom_transform`. -/
def p_syn : ℚ := mkRat 1 2

def p_typo_word : ℚ := mkRat 1 5

def min_token_len : Nat := 3

/-- The HTML-artifact skip set `{"<", ">", "/>", "<br", "br", "br/"}`. -/
def htmlSkip : List Word :=
  [['<'], ['>'], ['/', '>'], ['<', 'b', 'r'], ['b', 'r'], ['b', 'r', '/']]

/-- `match_case(src, tgt)`.  The inner `none` models the `IndexError` of
`src[0]` on an empty `src` (reached only when `src.isupper()` is false). -/
def match_case (src tgt : Word) : Option Word :=
  if pyIsUpper src then some (pyUpper tgt)
  else
    match src with
    | [] => none
    | c :: _ => if c.isUpper then some (pyCapitalize tgt) else some tgt

/-- `abs(len(w) - n)` for the length-closeness key of `get_synonym`. -/
def lenDist (w : Word) (n : Nat) : Nat := max w.length n - min w.length n

/-- Lexicographic strict order on words (Python string `<`, by code point). -/
def wordLt : Word → Word → Bool
  | [], [] => false
  | [], _ :: _ => true
  | _ :: _, [] => false
  | a :: as, b :: bs =>
    if a < b then true else if b < a then false else wordLt as bs

def insertWord (a : Word) : List Word → List Word
  | [] => [a]
  | b :: bs => if wordLt a b then a :: b :: bs else b :: insertWord a bs

/-- `sorted(·)` on a list of distinct words (ascending lexicographic). -/
def sortWords : List Word → List Word
  | [] => []
  | a :: as => insertWord a (sortWords as)

def insertDist (n : Nat) (a : Word) : List Word → List Word
  | [] => [a]
  | b :: bs =>
    if lenDist a n ≤ lenDist b n then a :: b :: bs else b :: insertDist n a bs

/-- `sorted(l, key=lambda w: abs(len(w) - n))`: a stable ascending sort by
the length-distance key (insertion sort that keeps an earlier element in
front of later elements with an equal key, which is the characteristic
property of Python's stable `sorted`). -/
def sortByDist (n : Nat) : List Word → List Word
  | [] => []
  | a :: as => insertDist n a (sortByDist n as)

/-- `_cached_synonyms(lower_word)`.  The WordNet lemma enumeration
(`wordnet.synsets` / `syn.lemmas()` / `l.name()`) is the external parameter
`wn`; the repository's own filtering (`replace("_", " ")`, `isalpha`,
difference from the queried word) and the final `tuple(sorted(set(...)))`
are transcribed. -/
def _cached_synonyms (wn : Word → List Word) (lower_word : Word) : List Word :=
  let lemmas := ((wn lower_word).map underscoreToSpace).filter
    (fun cand => pyIsAlpha cand && pyLower cand ≠ lower_word)
  sortWords lemmas.dedup

/-- `get_synonym(token)` of `custom_transform`: sort the cached candidates
by length-closeness, keep the first five, pick one at random; `none` in the
inner `Option` is Python's `None` (no synonym), the outer `none` a raised
exception. -/
def get_synonym (wn : Word → List Word) (token : Word) (g : RNG) :
    Option (Option Word × RNG) :=
  if (_cached_synonyms wn (pyLower token)).isEmpty then some (none, g)
  else
    if ((sortByDist (pyLower token).length
        (_cached_synonyms wn (pyLower token))).take 5).isEmpty then
      some (none, g)
    else
      match randChoice ((sortByDist (pyLower token).length
          (_cached_synonyms wn (pyLower token))).take 5) g with
      | none => none
      | some (c, g') => some (some c, g')

/-- `_pick_neighbor_like(ch)`: QWERTY neighbor of `ch` (case-matched), or
`None` when the lowercased character has no entry / an empty entry. -/
def pick_neighbor_like (ch : Char) (g : RNG) : Option (Option Char × RNG) :=
  match QWERTY_NEIGHBORS ch.toLower with
  | none => some (none, g)
  | some neigh =>
    if neigh.isEmpty then some (none, g)
    else
      match randChoice neigh g with
      | none => none
      | some (new_ch, g') =>
        some (some (if ch.isUpper then new_ch.toUpper else new_ch), g')

/-- The three operations drawn by `random.choice(["delete", "insert",
"substitute"])`, in the list order of the source. -/
inductive TypoOp : Type where
  | delete : TypoOp
  | insert : TypoOp
  | substitute : TypoOp
deriving DecidableEq

/-- The `--- SUBSTITUTE ---` tail of `inject_typo`: replace `word[pos]` by a
case-matched neighbor, re-drawing once if the neighbor equals the original,
and degrading to a no-op when no neighbor exists or no change results. -/
def substituteStep (word : Word) (pos : Nat) (g : RNG) : Option (Word × RNG) :=
  match word[pos]? with
  | none => none
  | some ch =>
    match pick_neighbor_like ch g with
    | none => none
    | some (none, g1) => some (word, g1)
    | some (some sub_ch, g1) =>
      if sub_ch = ch then
        match pick_neighbor_like ch g1 with
        | none => none
        | some (alt, g2) =>
          let sub2 := alt.getD sub_ch
          if sub2 = ch then some (word, g2)
          else some (word.take pos ++ sub2 :: word.drop (pos + 1), g2)
      else some (word.take pos ++ sub_ch :: word.drop (pos + 1), g1)

/-- The successful tail of the `--- INSERT ---` branch: insert `insert_ch`
before or after position `pos` according to a coin flip. -/
def insertReturn (word : Word) (pos : Nat) (insert_ch : Char) (g : RNG) :
    Option (Word × RNG) :=
  match randChoice [true, false] g with
  | none => none
  | some (after, g1) =>
    if after then some (word.take (pos + 1) ++ insert_ch :: word.drop (pos + 1), g1)
    else some (word.take pos ++ insert_ch :: word.drop pos, g1)

/-- The `--- INSERT ---` branch of `inject_typo`: base the inserted
character on `word[pos]`, retry with a neighboring position when that
character has no QWERTY neighbor, and fall back to substitution when no
neighbor is found at all. -/
def insertStep (word : Word) (pos : Nat) (g : RNG) : Option (Word × RNG) :=
  match word[pos]? with
  | none => none
  | some base_ch =>
    match pick_neighbor_like base_ch g with
    | none => none
    | some (some insert_ch, g1) => insertReturn word pos insert_ch g1
    | some (none, g1) =>
      if 1 < word.length then
        match randChoice [(-1 : Int), 1] g1 with
        | none => none
        | some (delta, g2) =>
          match word[(max 0 (min ((word.length : Int) - 1)
              ((pos : Int) + delta))).toNat]? with
          | none => none
          | some alt_ch =>
            match pick_neighbor_like alt_ch g2 with
            | none => none
            | some (some insert_ch, g3) => insertReturn word pos insert_ch g3
            | some (none, g3) => substituteStep word pos g3
      else substituteStep word pos g1

/-- `inject_typo(word, min_token_len)`: guard very short words, draw an
interior position and an operation, apply it with the fallbacks of the
source (delete only when strictly longer than `mtl`, insert falling back to
substitute). -/
def inject_typo (word : Word) (mtl : Nat) (g : RNG) : Option (Word × RNG) :=
  if word.length < mtl then some (word, g)
  else
    match randChoice
      (if (List.range' 1 (word.length - 2)).isEmpty then List.range word.length
       else List.range' 1 (word.length - 2)) g with
    | none => none
    | some (pos, g1) =>
      match randChoice [TypoOp.delete, TypoOp.insert, TypoOp.substitute] g1 with
      | none => none
      | some (op, g2) =>
        match op with
        | TypoOp.delete =>
          if mtl < word.length then
            some (word.take pos ++ word.drop (pos + 1), g2)
          else
            match randChoice [TypoOp.insert, TypoOp.substitute] g2 with
            | none => none
            | some (op2, g3) =>
              match op2 with
              | TypoOp.insert => insertStep word pos g3
              | _ => substituteStep word pos g3
        | TypoOp.insert => insertStep word pos g2
        | TypoOp.substitute => substituteStep word pos g2

/-- Lines 305-309 of `utils.py` without the probability draw: look up a
synonym, and when one is found (truthy, i.e. non-empty) case-match it and
make it the new token. -/
def synStep (wn : Word → List Word) (tok : Word) (g : RNG) :
    Option (Word × RNG) :=
  match get_synonym wn tok g with
  | none => none
  | some (none, g') => some (tok, g')
  | some (some syn, g') =>
    if syn.isEmpty then some (tok, g')
    else
      match match_case tok syn with
      | none => none
      | some syn' => some (syn', g')

/-- The synonym phase of the eligible-token branch: with probability
`p_syn` attempt a synonym replacement, otherwise keep the token. -/
def synPhase (wn : Word → List Word) (tok : Word) (g : RNG) :
    Option (Word × RNG) :=
  let (q1, g1) := randFloat g
  if q1 < p_syn then synStep wn tok g1 else some (tok, g1)

/-- The typo phase of the eligible-token branch: with probability
`p_typo_word` inject a typo into the (possibly already replaced) token. -/
def typoPhase (tok : Word) (g : RNG) : Option (Word × RNG) :=
  let (q2, g1) := randFloat g
  if q2 < p_typo_word then inject_typo tok min_token_len g1
  else some (tok, g1)

/-- The body of the main token loop of `custom_transform`: skip
HTML-artifact fragments and stopwords, transform alphabetic tokens of
length at least `min_token_len` (synonym phase then typo phase), pass
everything else through unchanged. -/
def processToken (stop : Word → Bool) (wn : Word → List Word)
    (tok : Word) (g : RNG) : Option (Word × RNG) :=
  if htmlSkip.contains (pyLower tok) then some (tok, g)
  else if stop (pyLower tok) then some (tok, g)
  else if pyIsAlpha tok = true ∧ min_token_len ≤ tok.length then
    match synPhase wn tok g with
    | none => none
    | some (tok1, g1) => typoPhase tok1 g1
  else some (tok, g)

/-- The main loop: process the tokens left to right, threading the random
stream, and collect the new tokens in order. -/
def transformTokens (stop : Word → Bool) (wn : Word → List Word) :
    List Word → RNG → Option (List Word × RNG)
  | [], g => some ([], g)
  | tok :: rest, g =>
    match processToken stop wn tok g with
    | none => none
    | some (tok', g') =>
      match transformTokens stop wn rest g' with
      | none => none
      | some (rest', g'') => some (tok' :: rest', g'')

/-- The `text` field of an input example: absent key, present non-string
value (e.g. `None`), or a string. -/
inductive TextVal : Type where
  | missing : TextVal
  | nonStr : TextVal
  | str : Word → TextVal
deriving DecidableEq

/-- An input example: a `text` field and an opaque `label` field. -/
structure Example (L : Type) : Type where
  text : TextVal
  label : L
deriving DecidableEq

/-- `example.get("text", "")`. -/
def getTextField {L : Type} (ex : Example L) : TextVal :=
  match ex.text with
  | TextVal.missing => TextVal.str []
  | t => t

/-- `custom_transform(example)`.  `tokenize` and `detok` model
`word_tokenize` and `TreebankWordDetokenizer().detokenize`, `stop`
membership in `STOPWORDS`, `wn` the WordNet lemma enumeration; the guard,
the token loop and the punctuation-spacing cleanup are transcribed from
the source. -/
def custom_transform {L : Type} (tokenize : Word → List Word)
    (detok : List Word → Word) (stop : Word → Bool)
    (wn : Word → List Word) (ex : Example L) (g : RNG) :
    Option (Example L × RNG) :=
  match getTextField ex with
  | TextVal.missing => some (ex, g)
  | TextVal.nonStr => some (ex, g)
  | TextVal.str s =>
    if s.length = 0 then some (ex, g)
    else
      match transformTokens stop wn (tokenize s) g with
      | none => none
      | some (new_tokens, g') =>
        let new_text := detok new_tokens
        let cleaned :=
          pyReplace [' ', '?'] ['?']
            (pyReplace [' ', '!'] ['!']
              (pyReplace [' ', '.'] ['.']
                (pyReplace [' ', ','] [','] new_text)))
        some ({ ex with text := TextVal.str cleaned }, g')

/-- Eligibility of a token for transformation (not an HTML fragment, not a
stopword, alphabetic, long enough), as in the main loop. -/
def eligibleToken (stop : Word → Bool) (tok : Word) : Prop :=
  htmlSkip.contains (pyLower tok) = false ∧ stop (pyLower tok) = false ∧
    pyIsAlpha tok = true ∧ min_token_len ≤ tok.length

/-- A token the main loop passes through unchanged: HTML fragment,
stopword, non-alphabetic, or shorter than `min_token_len`. -/
def passThroughToken (stop : Word → Bool) (tok : Word) : Prop :=
  htmlSkip.contains (pyLower tok) = true ∨ stop (pyLower tok) = true ∨
    ¬(pyIsAlpha tok = true ∧ min_token_len ≤ tok.length)

/-- Modelled from the spec: a single-word string is title-case when its
first character is uppercase and the remaining characters are lowercase
(used only to state the spec's case-preservation trichotomy). -/
def specTitleCase (w : Word) : Bool :=
  match w with
  | [] => false
  | c :: cs => c.isUpper && cs.all (fun d => !d.isAlpha || d.isLower)

/-! Concrete instantiations of the external collaborators and concrete
inputs, used for example runs of the embedded transform. -/

/-- A WordNet model with no synonyms at all. -/
def wn0 : Word → List Word := fun _ => []

/-- An empty stopword set. -/
def stop0 : Word → Bool := fun _ => false

/-- A trivial tokenizer: the whole text is one token. -/
def tok0 : Word → List Word := fun s => [s]

/-- A trivial detokenizer: concatenation. -/
def detok0 : List Word → Word := fun l => l.foldr (· ++ ·) []

def movie0 : Word := ['m', 'o', 'v', 'i', 'e']

def mvie0 : Word := ['m', 'v', 'i', 'e']

/-- A concrete input example with label `1`. -/
def ex0 : Example Nat := ⟨TextVal.str movie0, 1⟩

/-- The output of the transform on `ex0` with the all-zero draw stream. -/
def exOut0 : Example Nat := ⟨TextVal.str mvie0, 1⟩

/-- An input example whose `text` field is not a string. -/
def exBad0 : Example Nat := ⟨TextVal.nonStr, 0⟩

def toolongword0 : Word := ['t', 'o', 'o', 'l', 'o', 'n', 'g', 'w', 'o', 'r', 'd']

def xyzw0 : Word := ['x', 'y', 'z', 'w']

def abcd0 : Word := ['a', 'b', 'c', 'd']

/-- A WordNet model giving `abcd0` one close and one far candidate. -/
def wn3 : Word → List Word := fun w => if w = abcd0 then [toolongword0, xyzw0] else []

/-! ## Helper lemmas about the random-stream model -/

theorem validRNG_nil : validRNG [] := by
  intro q hq
  cases hq

theorem validRNG_tail {g : RNG} (h : validRNG g) : validRNG g.tail := by
  cases g with
  | nil => exact h
  | cons q t => exact fun x hx => h x (List.mem_cons_of_mem _ hx)

theorem validRNG_headD {g : RNG} (h : validRNG g) :
    0 ≤ g.headD 0 ∧ g.headD 0 < 1 := by
  cases g with
  | nil => exact ⟨le_refl 0, one_pos⟩
  | cons q t => exact h q (List.mem_cons_self q t)

theorem drawIndex_lt {q : ℚ} (hq0 : 0 ≤ q) (hq1 : q < 1) {n : Nat}
    (hn : 0 < n) : drawIndex q n < n := by
  have hnum0 : 0 ≤ q.num := Rat.num_nonneg.mpr hq0
  have hnum1 : q.num < (q.den : ℤ) := Rat.lt_one_iff_num_lt_denom.mp hq1
  have hlt : q.num.toNat < q.den := by omega
  have hden : 0 < q.den := q.pos
  unfold drawIndex
  rw [Nat.div_lt_iff_lt_mul hden]
  calc q.num.toNat * n < q.den * n := by
        exact Nat.mul_lt_mul_of_lt_of_le hlt (le_refl n) hn
    _ = n * q.den := Nat.mul_comm ..

theorem randChoice_eq_some {α : Type} {l : List α} (hl : l ≠ []) {g : RNG}
    (hg : validRNG g) : ∃ a, randChoice l g = some (a, g.tail) ∧ a ∈ l := by
  have hn : 0 < l.length := List.length_pos.mpr hl
  obtain ⟨hq0, hq1⟩ := validRNG_headD hg
  have hidx : drawIndex (g.headD 0) l.length < l.length := drawIndex_lt hq0 hq1 hn
  refine ⟨l.get ⟨_, hidx⟩, ?_, List.get_mem ..⟩
  unfold randChoice
  rw [dif_pos hidx]

theorem randChoice_inv {α : Type} {l : List α} {g : RNG} {a : α} {g' : RNG}
    (h : randChoice l g = some (a, g')) : a ∈ l ∧ g' = g.tail := by
  unfold randChoice at h
  split at h
  · simp only [Option.some.injEq, Prod.mk.injEq] at h
    obtain ⟨h1, h2⟩ := h
    exact ⟨h1 ▸ List.get_mem .., h2.symm⟩
  · cases h

/-! ## C1, C2, C8 -/

/-- C1: Label invariance — for every input example, the label field of the
example returned by `custom_transform` equals the label field of the input
example; the transform replaces only the text field. -/
theorem custom_transform_label_invariant {L : Type} (tokenize : Word → List Word)
    (detok : List Word → Word) (stop : Word → Bool) (wn : Word → List Word)
    (ex : Example L) (g : RNG) (out : Example L) (g' : RNG)
    (h : custom_transform tokenize detok stop wn ex g = some (out, g')) :
    out.label = ex.label := by
  unfold custom_transform at h
  split at h
  · simp only [Option.some.injEq, Prod.mk.injEq] at h
    rw [← h.1]
  · simp only [Option.some.injEq, Prod.mk.injEq] at h
    rw [← h.1]
  · split at h
    · simp only [Option.some.injEq, Prod.mk.injEq] at h
      rw [← h.1]
    · split at h
      · cases h
      · simp only [Option.some.injEq, Prod.mk.injEq] at h
        rw [← h.1]

theorem custom_transform_label_invariant_wit : exOut0.label = ex0.label :=
  custom_transform_label_invariant tok0 detok0 stop0 wn0 ex0 [] exOut0 []
    (by decide)

/-- C2: Early-return guard — for every input example whose text field is
missing, not a string, or the empty string, `custom_transform` returns the
example unchanged (no field modified), and this is not an error. -/
theorem custom_transform_early_return {L : Type} (tokenize : Word → List Word)
    (detok : List Word → Word) (stop : Word → Bool) (wn : Word → List Word)
    (ex : Example L) (g : RNG)
    (h : ex.text = TextVal.missing ∨ ex.text = TextVal.nonStr ∨
      ex.text = TextVal.str []) :
    custom_transform tokenize detok stop wn ex g = some (ex, g) := by
  rcases h with h | h | h <;>
    simp [custom_transform, getTextField, h]

theorem custom_transform_early_return_wit :
    custom_transform tok0 detok0 stop0 wn0 exBad0 [] = some (exBad0, []) :=
  custom_transform_early_return tok0 detok0 stop0 wn0 exBad0 []
    (Or.inr (Or.inl rfl))

/-- C8: Determinism under a fixed seed — two invocations of
`custom_transform` starting from the same pseudo-random generator state and
given the same input example produce identical output examples. -/
theorem custom_transform_deterministic {L : Type} (tokenize : Word → List Word)
    (detok : List Word → Word) (stop : Word → Bool) (wn : Word → List Word)
    (ex1 ex2 : Example L) (g1 g2 : RNG) (hex : ex1 = ex2) (hg : g1 = g2) :
    custom_transform tokenize detok stop wn ex1 g1 =
      custom_transform tokenize detok stop wn ex2 g2 := by
  rw [hex, hg]

theorem custom_transform_deterministic_wit :
    custom_transform tok0 detok0 stop0 wn0 ex0 [] =
      custom_transform tok0 detok0 stop0 wn0 ex0 [] :=
  custom_transform_deterministic tok0 detok0 stop0 wn0 ex0 ex0 [] [] rfl rfl

/-! ## C5: case preservation under synonym replacement -/

/-- C5 counterexample: the token "AbC" is neither all-uppercase nor
title-case, so the claim requires the candidate to be used as given; but
`match_case` capitalizes it (first character of the source is uppercase),
so the output differs from the candidate. -/
theorem match_case_as_given_cex :
    pyIsUpper ['A', 'b', 'C'] = false ∧
    specTitleCase ['A', 'b', 'C'] = false ∧
    match_case ['A', 'b', 'C'] ['x', 'y', 'z'] = some ['X', 'y', 'z'] ∧
    match_case ['A', 'b', 'C'] ['x', 'y', 'z'] ≠ some ['x', 'y', 'z'] := by
  decide

/-- C5 (amended): if the original token is all uppercase the replacement is
the uppercased candidate; otherwise, if its first character is uppercase,
the replacement is the capitalized (title-case) candidate; otherwise the
candidate is used as given. -/
theorem match_case_case_pattern (src tgt : Word) :
    (pyIsUpper src = true → match_case src tgt = some (pyUpper tgt)) ∧
    (pyIsUpper src = false →
      ∀ c cs, src = c :: cs →
        (c.isUpper = true → match_case src tgt = some (pyCapitalize tgt)) ∧
        (c.isUpper = false → match_case src tgt = some tgt)) := by
  constructor
  · intro h
    unfold match_case
    rw [if_pos h]
  · intro h c cs hsrc
    constructor <;> intro hc <;> unfold match_case <;>
      rw [if_neg (by rw [h]; exact Bool.false_ne_true)] <;> rw [hsrc] <;>
      simp [hc]

theorem match_case_case_pattern_wit :
    match_case ['G', 'R', 'E', 'A', 'T'] ['g', 'o', 'o', 'd'] =
      some (pyUpper ['g', 'o', 'o', 'd']) :=
  (match_case_case_pattern ['G', 'R', 'E', 'A', 'T'] ['g', 'o', 'o', 'd']).1
    (by decide)

/-! ## C3: synonym selection rule -/

theorem insertDist_perm (n : Nat) (a : Word) (l : List Word) :
    (insertDist n a l).Perm (a :: l) := by
  induction l with
  | nil => exact List.Perm.refl _
  | cons b bs ih =>
    unfold insertDist
    split
    · exact List.Perm.refl _
    · exact List.Perm.trans (List.Perm.cons b ih) (List.Perm.swap a b bs)

theorem sortByDist_perm (n : Nat) (l : List Word) :
    (sortByDist n l).Perm l := by
  induction l with
  | nil => exact List.Perm.refl _
  | cons a as ih =>
    exact List.Perm.trans (insertDist_perm n a (sortByDist n as))
      (List.Perm.cons a ih)

theorem insertDist_pairwise {n : Nat} {a : Word} {l : List Word}
    (h : l.Pairwise (fun u v => lenDist u n ≤ lenDist v n)) :
    (insertDist n a l).Pairwise (fun u v => lenDist u n ≤ lenDist v n) := by
  induction l with
  | nil => simp [insertDist]
  | cons b bs ih =>
    rcases List.pairwise_cons.mp h with ⟨hb, hbs⟩
    unfold insertDist
    split
    next hle =>
      refine List.pairwise_cons.mpr ⟨?_, h⟩
      intro x hx
      rcases List.mem_cons.mp hx with rfl | hx'
      · exact hle
      · exact le_trans hle (hb x hx')
    next hgt =>
      refine List.pairwise_cons.mpr ⟨?_, ih hbs⟩
      intro x hx
      have hx' := (insertDist_perm n a bs).mem_iff.mp hx
      rcases List.mem_cons.mp hx' with rfl | hx''
      · omega
      · exact hb x hx''

theorem sortByDist_pairwise (n : Nat) (l : List Word) :
    (sortByDist n l).Pairwise (fun u v => lenDist u n ≤ lenDist v n) := by
  induction l with
  | nil => simp [sortByDist]
  | cons a as ih => exact insertDist_pairwise ih

theorem countP_le_index_of_sorted {n : Nat} {r : List Word}
    (hp : r.Pairwise (fun u v => lenDist u n ≤ lenDist v n))
    {c : Word} {i : Nat} (hi : i < r.length) (hc : r[i] = c) :
    r.countP (fun w => decide (lenDist w n < lenDist c n)) ≤ i := by
  have hpair := List.pairwise_iff_getElem.mp hp
  have hzero :
      (r.drop i).countP (fun w => decide (lenDist w n < lenDist c n)) = 0 := by
    rw [List.countP_eq_zero]
    intro x hx
    obtain ⟨k, hk, hxk⟩ := List.mem_iff_getElem.mp hx
    have hik : i + k < r.length := by
      have := hk
      rw [List.length_drop] at this
      omega
    have hxr : x = r[i + k] := by
      rw [← hxk, List.getElem_drop]
    rcases Nat.eq_zero_or_pos k with hk0 | hkpos
    · subst hk0
      simp only [Nat.add_zero] at hxr
      rw [hxr, hc]
      simp
    · have hle : lenDist r[i] n ≤ lenDist r[i + k] n :=
        hpair i (i + k) hi hik (by omega)
      rw [hc] at hle
      rw [hxr]
      simp only [decide_eq_true_eq]
      omega
  have hsplit := List.take_append_drop i r
  calc r.countP (fun w => decide (lenDist w n < lenDist c n))
      = (r.take i ++ r.drop i).countP
          (fun w => decide (lenDist w n < lenDist c n)) := by rw [hsplit]
    _ = (r.take i).countP (fun w => decide (lenDist w n < lenDist c n)) +
        (r.drop i).countP (fun w => decide (lenDist w n < lenDist c n)) :=
        List.countP_append ..
    _ ≤ (r.take i).length + 0 := by
        rw [hzero]
        exact Nat.add_le_add_right (List.countP_le_length _) 0
    _ ≤ i := by
        rw [List.length_take]
        omega

/-- C3 counterexample: with candidates "toolongword" (length distance 7)
and "xyzw" (length distance 0) for the token "abcd", the draw 1/2 makes
`get_synonym` return "toolongword" even though "xyzw" is strictly closer in
length, so the chosen replacement is not the candidate whose length is
closest to the original token's length. -/
theorem get_synonym_not_closest_cex :
    get_synonym wn3 abcd0 [mkRat 1 2] = some (some toolongword0, []) ∧
    xyzw0 ∈ _cached_synonyms wn3 (pyLower abcd0) ∧
    ¬(∀ w ∈ _cached_synonyms wn3 (pyLower abcd0),
        lenDist toolongword0 (pyLower abcd0).length ≤
          lenDist w (pyLower abcd0).length) := by
  decide

/-- C3 (amended): whenever synonym replacement is attempted and the cached
candidate set for the lowercase token is non-empty, the chosen replacement
is one of the (at most) five candidates whose lengths are closest to the
original token's length — picked uniformly at random among those five — so
at most four cached candidates are strictly closer in length than the
chosen one. -/
theorem get_synonym_among_five_closest (wn : Word → List Word) (tok : Word)
    (c : Word) (g g' : RNG)
    (h : get_synonym wn tok g = some (some c, g')) :
    c ∈ _cached_synonyms wn (pyLower tok) ∧
    ((_cached_synonyms wn (pyLower tok)).countP
        (fun w => decide (lenDist w (pyLower tok).length <
          lenDist c (pyLower tok).length))) ≤ 4 := by
  unfold get_synonym at h
  split at h
  · simp at h
  · split at h
    · simp at h
    · cases hrc : randChoice ((sortByDist (pyLower tok).length
          (_cached_synonyms wn (pyLower tok))).take 5) g with
      | none =>
        rw [hrc] at h
        cases h
      | some p =>
        obtain ⟨a, g2⟩ := p
        rw [hrc] at h
        simp only [Option.some.injEq, Prod.mk.injEq] at h
        obtain ⟨hac, -⟩ := h
        obtain ⟨hmem, -⟩ := randChoice_inv hrc
        rw [hac] at hmem
        have hsorted : c ∈ sortByDist (pyLower tok).length
            (_cached_synonyms wn (pyLower tok)) := List.mem_of_mem_take hmem
        have hlem : c ∈ _cached_synonyms wn (pyLower tok) :=
          (sortByDist_perm (pyLower tok).length
            (_cached_synonyms wn (pyLower tok))).mem_iff.mp hsorted
        refine ⟨hlem, ?_⟩
        obtain ⟨i, hi, hci⟩ := List.mem_iff_getElem.mp hmem
        have hi5 : i < 5 := by
          have := hi
          rw [List.length_take] at this
          omega
        have hilen : i < (sortByDist (pyLower tok).length
            (_cached_synonyms wn (pyLower tok))).length := by
          have := hi
          rw [List.length_take] at this
          omega
        have hgi : (sortByDist (pyLower tok).length
            (_cached_synonyms wn (pyLower tok)))[i] = c := by
          rw [← hci, List.getElem_take]
        have hcount := countP_le_index_of_sorted
          (sortByDist_pairwise (pyLower tok).length
            (_cached_synonyms wn (pyLower tok))) hilen hgi
        have hperm := (sortByDist_perm (pyLower tok).length
          (_cached_synonyms wn (pyLower tok))).countP_eq
          (fun w => decide (lenDist w (pyLower tok).length <
            lenDist c (pyLower tok).length))
        omega

theorem get_synonym_among_five_closest_wit :
    toolongword0 ∈ _cached_synonyms wn3 (pyLower abcd0) ∧
    ((_cached_synonyms wn3 (pyLower abcd0)).countP
        (fun w => decide (lenDist w (pyLower abcd0).length <
          lenDist toolongword0 (pyLower abcd0).length))) ≤ 4 :=
  get_synonym_among_five_closest wn3 abcd0 toolongword0 [mkRat 1 2] []
    (by decide)

/-! ## C6 and C10: pass-through tokens and token-count preservation -/

theorem processToken_passthrough (stop : Word → Bool) (wn : Word → List Word)
    (tok : Word) (g : RNG) (h : passThroughToken stop tok) :
    processToken stop wn tok g = some (tok, g) := by
  unfold processToken
  by_cases h1 : htmlSkip.contains (pyLower tok) = true
  · rw [if_pos h1]
  · rw [if_neg h1]
    by_cases h2 : stop (pyLower tok) = true
    · rw [if_pos h2]
    · rw [if_neg h2]
      rcases h with h | h | h
      · exact absurd h h1
      · exact absurd h h2
      · rw [if_neg h]

theorem transformTokens_cons_inv {stop : Word → Bool} {wn : Word → List Word}
    {t : Word} {rest : List Word} {g : RNG} {out : List Word} {g' : RNG}
    (h : transformTokens stop wn (t :: rest) g = some (out, g')) :
    ∃ t' g1 rest', processToken stop wn t g = some (t', g1) ∧
      transformTokens stop wn rest g1 = some (rest', g') ∧
      out = t' :: rest' := by
  unfold transformTokens at h
  cases hp : processToken stop wn t g with
  | none =>
    rw [hp] at h
    cases h
  | some p1 =>
    obtain ⟨t', g1⟩ := p1
    rw [hp] at h
    dsimp only at h
    cases ht : transformTokens stop wn rest g1 with
    | none =>
      rw [ht] at h
      cases h
    | some p2 =>
      obtain ⟨rest', g2⟩ := p2
      rw [ht] at h
      simp only [Option.some.injEq, Prod.mk.injEq] at h
      exact ⟨t', g1, rest', rfl, by rw [ht, h.2], h.1.symm⟩

/-- C6: Pass-through tokens are untouched — for every input token that is
an HTML-artifact fragment, a stopword, non-alphabetic, or shorter than 3
characters, the output token at the same position in the token sequence is
byte-identical to the input token. -/
theorem transformTokens_passthrough_preserved (stop : Word → Bool)
    (wn : Word → List Word) :
    ∀ (tokens : List Word) (g : RNG) (out : List Word) (g' : RNG),
      transformTokens stop wn tokens g = some (out, g') →
      ∀ (i : Nat) (tok : Word), tokens[i]? = some tok →
        passThroughToken stop tok → out[i]? = some tok := by
  intro tokens
  induction tokens with
  | nil =>
    intro g out g' h i tok hti
    simp at hti
  | cons t rest ih =>
    intro g out g' h i tok hti hpass
    obtain ⟨t', g1, rest', hp, ht, hout⟩ := transformTokens_cons_inv h
    subst hout
    cases i with
    | zero =>
      simp only [List.getElem?_cons_zero, Option.some.injEq] at hti
      subst hti
      rw [processToken_passthrough stop wn t g hpass] at hp
      simp only [Option.some.injEq, Prod.mk.injEq] at hp
      rw [List.getElem?_cons_zero, hp.1]
    | succ j =>
      simp only [List.getElem?_cons_succ] at hti ⊢
      exact ih g1 rest' g' ht j tok hti hpass

theorem transformTokens_passthrough_preserved_wit :
    ([['o', 'k'], ['<']] : List Word)[0]? = some ['o', 'k'] := by
  have h := transformTokens_passthrough_preserved stop0 wn0
    [['o', 'k'], ['<']] [] [['o', 'k'], ['<']] [] (by decide) 0 ['o', 'k']
    (by decide) (Or.inr (Or.inr (by decide)))
  exact h

theorem mem_insertWord {x a : Word} {l : List Word} :
    x ∈ insertWord a l ↔ x = a ∨ x ∈ l := by
  induction l with
  | nil => simp [insertWord]
  | cons b bs ih =>
    unfold insertWord
    split
    · simp [List.mem_cons]
    · simp only [List.mem_cons, ih]
      tauto

theorem mem_sortWords {x : Word} {l : List Word} :
    x ∈ sortWords l ↔ x ∈ l := by
  induction l with
  | nil => simp [sortWords]
  | cons a as ih =>
    unfold sortWords
    rw [mem_insertWord, ih, List.mem_cons]

theorem cached_synonyms_alpha_ne (wn : Word → List Word) (w c : Word)
    (h : c ∈ _cached_synonyms wn w) : pyIsAlpha c = true ∧ pyLower c ≠ w := by
  unfold _cached_synonyms at h
  rw [mem_sortWords] at h
  have h2 := List.mem_dedup.mp h
  have h3 := (List.mem_filter.mp h2).2
  simp only [Bool.and_eq_true, decide_eq_true_eq] at h3
  exact ⟨h3.1, by simpa using h3.2⟩

theorem transformTokens_length (stop : Word → Bool) (wn : Word → List Word) :
    ∀ (tokens : List Word) (g : RNG) (out : List Word) (g' : RNG),
      transformTokens stop wn tokens g = some (out, g') →
      out.length = tokens.length := by
  intro tokens
  induction tokens with
  | nil =>
    intro g out g' h
    unfold transformTokens at h
    simp only [Option.some.injEq, Prod.mk.injEq] at h
    rw [← h.1]
  | cons t rest ih =>
    intro g out g' h
    obtain ⟨t', g1, rest', -, ht, hout⟩ := transformTokens_cons_inv h
    subst hout
    simp only [List.length_cons]
    rw [ih g1 rest' g' ht]

/-- C10: Token-count preservation — for every token list the output token
list built by `custom_transform`'s main loop contains exactly one token per
input token (same length), and every synonym candidate returned by the
cache is a purely-alphabetic word different from the queried lowercase
word, so no transformation ever splits a token or adds or removes tokens
from the sequence. -/
theorem transform_token_count_preserved :
    (∀ (stop : Word → Bool) (wn : Word → List Word) (tokens : List Word)
        (g : RNG) (out : List Word) (g' : RNG),
        transformTokens stop wn tokens g = some (out, g') →
        out.length = tokens.length) ∧
    (∀ (wn : Word → List Word) (w c : Word),
        c ∈ _cached_synonyms wn w →
        pyIsAlpha c = true ∧ pyLower c ≠ w) :=
  ⟨transformTokens_length, cached_synonyms_alpha_ne⟩

theorem transform_token_count_preserved_wit :
    ([['m', 'v', 'i', 'e']] : List Word).length =
        ([['m', 'o', 'v', 'i', 'e']] : List Word).length ∧
      pyIsAlpha xyzw0 = true ∧ pyLower xyzw0 ≠ pyLower abcd0 :=
  ⟨transform_token_count_preserved.1 stop0 wn0 [movie0] [] [mvie0] []
      (by decide),
    transform_token_count_preserved.2 wn3 (pyLower abcd0) xyzw0 (by decide)⟩

/-! ## C4: ordering of the two perturbations -/

/-- C4: for every eligible token the loop body is exactly the synonym phase
followed by the typo phase; the typo draw (threshold `p_typo_word`) is made
on the synonym phase's output stream no matter how that phase ended, and
when both perturbations fire the typo is injected into the
already-synonym-replaced (and case-matched) token — never the reverse
order. -/
theorem processToken_synonym_before_typo (stop : Word → Bool)
    (wn : Word → List Word) (tok : Word) (g : RNG)
    (h : eligibleToken stop tok) :
    (processToken stop wn tok g =
      match synPhase wn tok g with
      | none => none
      | some (tok1, g1) => typoPhase tok1 g1) ∧
    (∀ tok1 g1, synPhase wn tok g = some (tok1, g1) →
      processToken stop wn tok g =
        (if g1.headD 0 < p_typo_word then
          inject_typo tok1 min_token_len g1.tail
         else some (tok1, g1.tail))) ∧
    (∀ s s' g1, g.headD 0 < p_syn →
      get_synonym wn tok g.tail = some (some s, g1) →
      s.isEmpty = false → match_case tok s = some s' →
      g1.headD 0 < p_typo_word →
      processToken stop wn tok g =
        inject_typo s' min_token_len g1.tail) := by
  obtain ⟨h1, h2, h3, h4⟩ := h
  have hbody : processToken stop wn tok g =
      match synPhase wn tok g with
      | none => none
      | some (tok1, g1) => typoPhase tok1 g1 := by
    unfold processToken
    rw [if_neg (by rw [h1]; exact Bool.false_ne_true),
      if_neg (by rw [h2]; exact Bool.false_ne_true), if_pos ⟨h3, h4⟩]
  have hstep : ∀ tok1 g1, synPhase wn tok g = some (tok1, g1) →
      processToken stop wn tok g =
        (if g1.headD 0 < p_typo_word then
          inject_typo tok1 min_token_len g1.tail
         else some (tok1, g1.tail)) := by
    intro tok1 g1 hsyn
    rw [hbody, hsyn]
    rfl
  refine ⟨hbody, hstep, ?_⟩
  intro s s' g1 hq1 hget hne hmc hq2
  have hsyn : synPhase wn tok g = some (s', g1) := by
    unfold synPhase
    simp only [randFloat]
    rw [if_pos hq1]
    unfold synStep
    rw [hget]
    dsimp only
    rw [hne, hmc]
    simp
  rw [hstep s' g1 hsyn, if_pos hq2]

theorem processToken_synonym_before_typo_wit :
    processToken stop0 wn0 movie0 [] =
      match synPhase wn0 movie0 [] with
      | none => none
      | some (tok1, g1) => typoPhase tok1 g1 :=
  (processToken_synonym_before_typo stop0 wn0 movie0 []
    ⟨by decide, by decide, by decide, by decide⟩).1

/-! ## Totality and shape of the typo injector (C7, C9) -/

theorem pick_neighbor_like_none {ch : Char}
    (h : QWERTY_NEIGHBORS ch.toLower = none) (g : RNG) :
    pick_neighbor_like ch g = some (none, g) := by
  unfold pick_neighbor_like
  rw [h]

theorem pick_neighbor_like_total (ch : Char) (g : RNG) (hg : validRNG g) :
    ∃ r g', pick_neighbor_like ch g = some (r, g') ∧ validRNG g' := by
  unfold pick_neighbor_like
  cases hq : QWERTY_NEIGHBORS ch.toLower with
  | none => exact ⟨none, g, rfl, hg⟩
  | some neigh =>
    dsimp only
    by_cases he : neigh.isEmpty = true
    · rw [if_pos he]
      exact ⟨none, g, rfl, hg⟩
    · rw [if_neg he]
      have hne : neigh ≠ [] := by
        intro hh
        exact he (by rw [hh]; rfl)
      obtain ⟨a, hrc, -⟩ := randChoice_eq_some hne hg
      rw [hrc]
      exact ⟨_, g.tail, rfl, validRNG_tail hg⟩

theorem substituteStep_spec (word : Word) (pos : Nat) (g : RNG)
    (hpos : pos < word.length) (hg : validRNG g) :
    ∃ w' g', substituteStep word pos g = some (w', g') ∧ validRNG g' ∧
      (w' = word ∨ ∃ c, w' = word.take pos ++ c :: word.drop (pos + 1)) := by
  unfold substituteStep
  rw [List.getElem?_eq_getElem hpos]
  dsimp only
  obtain ⟨r, g1, hpick, hg1⟩ := pick_neighbor_like_total word[pos] g hg
  cases r with
  | none =>
    rw [hpick]
    exact ⟨word, g1, rfl, hg1, Or.inl rfl⟩
  | some sub_ch =>
    rw [hpick]
    dsimp only
    by_cases hsc : sub_ch = word[pos]
    · rw [if_pos hsc]
      obtain ⟨r2, g2, hpick2, hg2⟩ := pick_neighbor_like_total word[pos] g1 hg1
      rw [hpick2]
      dsimp only
      by_cases h2 : r2.getD sub_ch = word[pos]
      · rw [if_pos h2]
        exact ⟨word, g2, rfl, hg2, Or.inl rfl⟩
      · rw [if_neg h2]
        exact ⟨_, g2, rfl, hg2, Or.inr ⟨_, rfl⟩⟩
    · rw [if_neg hsc]
      exact ⟨_, g1, rfl, hg1, Or.inr ⟨_, rfl⟩⟩

theorem insertReturn_spec (word : Word) (pos : Nat) (c : Char) (g : RNG)
    (hg : validRNG g) :
    ∃ w' g', insertReturn word pos c g = some (w', g') ∧ validRNG g' ∧
      (w' = word.take (pos + 1) ++ c :: word.drop (pos + 1) ∨
       w' = word.take pos ++ c :: word.drop pos) := by
  unfold insertReturn
  obtain ⟨after, hrc, -⟩ :=
    randChoice_eq_some (l := [true, false]) (by simp) hg
  rw [hrc]
  dsimp only
  cases after with
  | true =>
    rw [if_pos rfl]
    exact ⟨_, g.tail, rfl, validRNG_tail hg, Or.inl rfl⟩
  | false =>
    rw [if_neg (by simp)]
    exact ⟨_, g.tail, rfl, validRNG_tail hg, Or.inr rfl⟩

theorem insertStep_spec (word : Word) (pos : Nat) (g : RNG)
    (hpos : pos < word.length) (hg : validRNG g) :
    ∃ w' g', insertStep word pos g = some (w', g') ∧ validRNG g' ∧
      (w' = word ∨
       (∃ c, w' = word.take (pos + 1) ++ c :: word.drop (pos + 1) ∨
             w' = word.take pos ++ c :: word.drop pos) ∨
       (∃ c, w' = word.take pos ++ c :: word.drop (pos + 1))) := by
  unfold insertStep
  rw [List.getElem?_eq_getElem hpos]
  dsimp only
  obtain ⟨r, g1, hpick, hg1⟩ := pick_neighbor_like_total word[pos] g hg
  cases r with
  | some insert_ch =>
    rw [hpick]
    dsimp only
    obtain ⟨w', g', hir, hg', hshape⟩ := insertReturn_spec word pos insert_ch g1 hg1
    exact ⟨w', g', hir, hg', Or.inr (Or.inl ⟨insert_ch, hshape⟩)⟩
  | none =>
    rw [hpick]
    dsimp only
    by_cases hlen : 1 < word.length
    · rw [if_pos hlen]
      obtain ⟨delta, hrc2, -⟩ :=
        randChoice_eq_some (l := [(-1 : Int), 1]) (by simp) hg1
      rw [hrc2]
      dsimp only
      have hub : max 0 (min ((word.length : Int) - 1) ((pos : Int) + delta)) ≤
          (word.length : Int) - 1 := by
        apply max_le _ (min_le_left _ _)
        omega
      have hlb : (0 : Int) ≤
          max 0 (min ((word.length : Int) - 1) ((pos : Int) + delta)) :=
        le_max_left _ _
      have halt : (max 0 (min ((word.length : Int) - 1)
          ((pos : Int) + delta))).toNat < word.length := by omega
      rw [List.getElem?_eq_getElem halt]
      dsimp only
      obtain ⟨r2, g3, hpick2, hg3⟩ :=
        pick_neighbor_like_total _ g1.tail (validRNG_tail hg1)
      cases r2 with
      | some insert_ch =>
        rw [hpick2]
        dsimp only
        obtain ⟨w', g', hir, hg', hshape⟩ :=
          insertReturn_spec word pos insert_ch g3 hg3
        exact ⟨w', g', hir, hg', Or.inr (Or.inl ⟨insert_ch, hshape⟩)⟩
      | none =>
        rw [hpick2]
        dsimp only
        obtain ⟨w', g', hsub, hg', hshape⟩ := substituteStep_spec word pos g3 hpos hg3
        refine ⟨w', g', hsub, hg', ?_⟩
        rcases hshape with h | ⟨c, hc⟩
        · exact Or.inl h
        · exact Or.inr (Or.inr ⟨c, hc⟩)
    · rw [if_neg hlen]
      obtain ⟨w', g', hsub, hg', hshape⟩ := substituteStep_spec word pos g1 hpos hg1
      refine ⟨w', g', hsub, hg', ?_⟩
      rcases hshape with h | ⟨c, hc⟩
      · exact Or.inl h
      · exact Or.inr (Or.inr ⟨c, hc⟩)

theorem inject_typo_spec (word : Word) (g : RNG) (h3 : 3 ≤ word.length)
    (hg : validRNG g) :
    ∃ w' g', inject_typo word 3 g = some (w', g') ∧ validRNG g' ∧
      ∃ pos, 1 ≤ pos ∧ pos + 2 ≤ word.length ∧
        (w' = word ∨
         (w' = word.take pos ++ word.drop (pos + 1) ∧ 3 < word.length) ∨
         (∃ c, w' = word.take (pos + 1) ++ c :: word.drop (pos + 1) ∨
               w' = word.take pos ++ c :: word.drop pos) ∨
         (∃ c, w' = word.take pos ++ c :: word.drop (pos + 1))) := by
  unfold inject_typo
  rw [if_neg (by omega)]
  have hnempty : (List.range' 1 (word.length - 2)).isEmpty = false := by
    cases hr : List.range' 1 (word.length - 2) with
    | nil =>
      have := congrArg List.length hr
      rw [List.length_range'] at this
      simp at this
      omega
    | cons a as => rfl
  rw [if_neg (by rw [hnempty]; exact Bool.false_ne_true)]
  have hrne : List.range' 1 (word.length - 2) ≠ [] := by
    intro hh
    rw [hh] at hnempty
    exact absurd hnempty (by simp [List.isEmpty])
  obtain ⟨pos, hrc, hmem⟩ := randChoice_eq_some hrne hg
  rw [hrc]
  dsimp only
  have hposb : 1 ≤ pos ∧ pos + 2 ≤ word.length := by
    rw [List.mem_range'_1] at hmem
    omega
  have hpos : pos < word.length := by omega
  obtain ⟨op, hrc2, -⟩ := randChoice_eq_some
    (l := [TypoOp.delete, TypoOp.insert, TypoOp.substitute]) (by simp)
    (validRNG_tail hg)
  rw [hrc2]
  dsimp only
  have hg2 : validRNG g.tail.tail := validRNG_tail (validRNG_tail hg)
  cases op with
  | delete =>
    dsimp only
    by_cases hd : 3 < word.length
    · rw [if_pos hd]
      exact ⟨_, g.tail.tail, rfl, hg2, pos, hposb.1, hposb.2,
        Or.inr (Or.inl ⟨rfl, hd⟩)⟩
    · rw [if_neg hd]
      obtain ⟨op2, hrc3, -⟩ := randChoice_eq_some
        (l := [TypoOp.insert, TypoOp.substitute]) (by simp) hg2
      rw [hrc3]
      dsimp only
      have hg3 : validRNG g.tail.tail.tail := validRNG_tail hg2
      cases op2 with
      | insert =>
        obtain ⟨w', g', hi, hg', hshape⟩ := insertStep_spec word pos _ hpos hg3
        exact ⟨w', g', hi, hg', pos, hposb.1, hposb.2, (by
          rcases hshape with h | ⟨c, hc⟩ | ⟨c, hc⟩
          · exact Or.inl h
          · exact Or.inr (Or.inr (Or.inl ⟨c, hc⟩))
          · exact Or.inr (Or.inr (Or.inr ⟨c, hc⟩)))⟩
      | delete =>
        obtain ⟨w', g', hs, hg', hshape⟩ := substituteStep_spec word pos _ hpos hg3
        exact ⟨w', g', hs, hg', pos, hposb.1, hposb.2, (by
          rcases hshape with h | ⟨c, hc⟩
          · exact Or.inl h
          · exact Or.inr (Or.inr (Or.inr ⟨c, hc⟩)))⟩
      | substitute =>
        obtain ⟨w', g', hs, hg', hshape⟩ := substituteStep_spec word pos _ hpos hg3
        exact ⟨w', g', hs, hg', pos, hposb.1, hposb.2, (by
          rcases hshape with h | ⟨c, hc⟩
          · exact Or.inl h
          · exact Or.inr (Or.inr (Or.inr ⟨c, hc⟩)))⟩
  | insert =>
    obtain ⟨w', g', hi, hg', hshape⟩ := insertStep_spec word pos _ hpos hg2
    exact ⟨w', g', hi, hg', pos, hposb.1, hposb.2, (by
          rcases hshape with h | ⟨c, hc⟩ | ⟨c, hc⟩
          · exact Or.inl h
          · exact Or.inr (Or.inr (Or.inl ⟨c, hc⟩))
          · exact Or.inr (Or.inr (Or.inr ⟨c, hc⟩)))⟩
  | substitute =>
    obtain ⟨w', g', hs, hg', hshape⟩ := substituteStep_spec word pos _ hpos hg2
    exact ⟨w', g', hs, hg', pos, hposb.1, hposb.2, (by
          rcases hshape with h | ⟨c, hc⟩
          · exact Or.inl h
          · exact Or.inr (Or.inr (Or.inr ⟨c, hc⟩)))⟩

theorem substituteStep_no_neighbor (word : Word) (pos : Nat) (g : RNG)
    (hpos : pos < word.length)
    (hnn : ∀ c ∈ word, QWERTY_NEIGHBORS c.toLower = none) :
    substituteStep word pos g = some (word, g) := by
  unfold substituteStep
  rw [List.getElem?_eq_getElem hpos]
  dsimp only
  rw [pick_neighbor_like_none (hnn _ (List.getElem_mem hpos)) g]

theorem insertStep_no_neighbor (word : Word) (pos : Nat) (g : RNG)
    (hpos : pos < word.length) (hg : validRNG g)
    (hnn : ∀ c ∈ word, QWERTY_NEIGHBORS c.toLower = none) :
    ∃ g', insertStep word pos g = some (word, g') := by
  unfold insertStep
  rw [List.getElem?_eq_getElem hpos]
  dsimp only
  rw [pick_neighbor_like_none (hnn _ (List.getElem_mem hpos)) g]
  dsimp only
  by_cases hlen : 1 < word.length
  · rw [if_pos hlen]
    obtain ⟨delta, hrc, -⟩ :=
      randChoice_eq_some (l := [(-1 : Int), 1]) (by simp) hg
    rw [hrc]
    dsimp only
    have hub : max 0 (min ((word.length : Int) - 1) ((pos : Int) + delta)) ≤
        (word.length : Int) - 1 := by
      apply max_le _ (min_le_left _ _)
      omega
    have hlb : (0 : Int) ≤
        max 0 (min ((word.length : Int) - 1) ((pos : Int) + delta)) :=
      le_max_left _ _
    have halt : (max 0 (min ((word.length : Int) - 1)
        ((pos : Int) + delta))).toNat < word.length := by omega
    rw [List.getElem?_eq_getElem halt]
    dsimp only
    rw [pick_neighbor_like_none (hnn _ (List.getElem_mem halt)) g.tail]
    dsimp only
    rw [substituteStep_no_neighbor word pos g.tail hpos hnn]
    exact ⟨g.tail, rfl⟩
  · rw [if_neg hlen]
    rw [substituteStep_no_neighbor word pos g hpos hnn]
    exact ⟨g, rfl⟩

/-- C7: Typo-injection feasibility and graceful no-op — for a word long
enough to pass the guard, the result is obtained at an interior position
`pos` (`1 ≤ pos ≤ len - 2`, never the first or last character) by a no-op,
a delete (only when the word is strictly longer than the minimum length —
otherwise the delete falls back to another operation), an insert of some
character before or after `pos`, or a substitution at `pos`; and when no
character of the word has a known QWERTY neighbor (and delete is
infeasible, word length exactly 3), the word is returned unchanged rather
than raising. -/
theorem inject_typo_interior_and_fallback (word : Word) (g : RNG)
    (h3 : 3 ≤ word.length) (hg : validRNG g) :
    (∃ w' g', inject_typo word 3 g = some (w', g') ∧
      ∃ pos, 1 ≤ pos ∧ pos + 2 ≤ word.length ∧
        (w' = word ∨
         (w' = word.take pos ++ word.drop (pos + 1) ∧ 3 < word.length) ∨
         (∃ c, w' = word.take (pos + 1) ++ c :: word.drop (pos + 1) ∨
               w' = word.take pos ++ c :: word.drop pos) ∨
         (∃ c, w' = word.take pos ++ c :: word.drop (pos + 1)))) ∧
    ((∀ c ∈ word, QWERTY_NEIGHBORS c.toLower = none) → word.length = 3 →
      ∃ g', inject_typo word 3 g = some (word, g')) := by
  constructor
  · obtain ⟨w', g', heq, -, hshape⟩ := inject_typo_spec word g h3 hg
    exact ⟨w', g', heq, hshape⟩
  · intro hnn hlen3
    unfold inject_typo
    rw [if_neg (by omega)]
    have hnempty : (List.range' 1 (word.length - 2)).isEmpty = false := by
      rw [hlen3]
      rfl
    rw [if_neg (by rw [hnempty]; exact Bool.false_ne_true)]
    have hrne : List.range' 1 (word.length - 2) ≠ [] := by
      rw [hlen3]
      exact fun hh => List.noConfusion hh
    obtain ⟨pos, hrc, hmem⟩ := randChoice_eq_some hrne hg
    rw [hrc]
    dsimp only
    have hpos : pos < word.length := by
      rw [List.mem_range'_1] at hmem
      omega
    obtain ⟨op, hrc2, -⟩ := randChoice_eq_some
      (l := [TypoOp.delete, TypoOp.insert, TypoOp.substitute]) (by simp)
      (validRNG_tail hg)
    rw [hrc2]
    dsimp only
    have hg2 : validRNG g.tail.tail := validRNG_tail (validRNG_tail hg)
    cases op with
    | delete =>
      dsimp only
      rw [if_neg (by omega)]
      obtain ⟨op2, hrc3, -⟩ := randChoice_eq_some
        (l := [TypoOp.insert, TypoOp.substitute]) (by simp) hg2
      rw [hrc3]
      dsimp only
      have hg3 : validRNG g.tail.tail.tail := validRNG_tail hg2
      cases op2 with
      | insert => exact insertStep_no_neighbor word pos _ hpos hg3 hnn
      | delete => exact ⟨_, substituteStep_no_neighbor word pos _ hpos hnn⟩
      | substitute => exact ⟨_, substituteStep_no_neighbor word pos _ hpos hnn⟩
    | insert => exact insertStep_no_neighbor word pos _ hpos hg2 hnn
    | substitute => exact ⟨_, substituteStep_no_neighbor word pos _ hpos hnn⟩

theorem inject_typo_interior_and_fallback_wit :
    (∃ w' g', inject_typo ['$', '$', '$'] 3 [] = some (w', g') ∧
      ∃ pos, 1 ≤ pos ∧ pos + 2 ≤ (['$', '$', '$'] : Word).length ∧
        (w' = ['$', '$', '$'] ∨
         (w' = (['$', '$', '$'] : Word).take pos ++
            (['$', '$', '$'] : Word).drop (pos + 1) ∧
           3 < (['$', '$', '$'] : Word).length) ∨
         (∃ c, w' = (['$', '$', '$'] : Word).take (pos + 1) ++
              c :: (['$', '$', '$'] : Word).drop (pos + 1) ∨
             w' = (['$', '$', '$'] : Word).take pos ++
              c :: (['$', '$', '$'] : Word).drop pos) ∨
         (∃ c, w' = (['$', '$', '$'] : Word).take pos ++
            c :: (['$', '$', '$'] : Word).drop (pos + 1)))) ∧
    ((∀ c ∈ (['$', '$', '$'] : Word), QWERTY_NEIGHBORS c.toLower = none) →
      (['$', '$', '$'] : Word).length = 3 →
      ∃ g', inject_typo ['$', '$', '$'] 3 [] = some (['$', '$', '$'], g')) :=
  inject_typo_interior_and_fallback ['$', '$', '$'] [] (by decide) validRNG_nil

/-! ## C9: totality of the transform -/

theorem inject_typo_total (word : Word) (g : RNG) (hg : validRNG g) :
    ∃ w' g', inject_typo word 3 g = some (w', g') ∧ validRNG g' := by
  by_cases h3 : word.length < 3
  · refine ⟨word, g, ?_, hg⟩
    unfold inject_typo
    rw [if_pos h3]
  · obtain ⟨w', g', heq, hg', -⟩ := inject_typo_spec word g (by omega) hg
    exact ⟨w', g', heq, hg'⟩

theorem match_case_total (src tgt : Word) (hsrc : src ≠ []) :
    ∃ w, match_case src tgt = some w := by
  unfold match_case
  split
  · exact ⟨_, rfl⟩
  · cases src with
    | nil => exact absurd rfl hsrc
    | cons c cs =>
      dsimp only
      split
      · exact ⟨_, rfl⟩
      · exact ⟨_, rfl⟩

theorem get_synonym_total (wn : Word → List Word) (token : Word) (g : RNG)
    (hg : validRNG g) :
    ∃ r g', get_synonym wn token g = some (r, g') ∧ validRNG g' := by
  unfold get_synonym
  split
  · exact ⟨none, g, rfl, hg⟩
  · split
    · exact ⟨none, g, rfl, hg⟩
    · next h2 =>
      have hne : (sortByDist (pyLower token).length
          (_cached_synonyms wn (pyLower token))).take 5 ≠ [] := by
        intro hh
        exact h2 (by rw [hh]; rfl)
      obtain ⟨a, hrc, -⟩ := randChoice_eq_some hne hg
      rw [hrc]
      exact ⟨some a, g.tail, rfl, validRNG_tail hg⟩

theorem synStep_total (wn : Word → List Word) (tok : Word) (g : RNG)
    (htok : tok ≠ []) (hg : validRNG g) :
    ∃ t' g', synStep wn tok g = some (t', g') ∧ validRNG g' := by
  unfold synStep
  obtain ⟨r, g1, hget, hg1⟩ := get_synonym_total wn tok g hg
  rw [hget]
  cases r with
  | none => exact ⟨tok, g1, rfl, hg1⟩
  | some syn =>
    dsimp only
    by_cases hemp : syn.isEmpty = true
    · rw [if_pos hemp]
      exact ⟨tok, g1, rfl, hg1⟩
    · rw [if_neg hemp]
      obtain ⟨w, hmc⟩ := match_case_total tok syn htok
      rw [hmc]
      exact ⟨w, g1, rfl, hg1⟩

theorem synPhase_total (wn : Word → List Word) (tok : Word) (g : RNG)
    (htok : tok ≠ []) (hg : validRNG g) :
    ∃ t' g', synPhase wn tok g = some (t', g') ∧ validRNG g' := by
  unfold synPhase
  dsimp only [randFloat]
  split
  · exact synStep_total wn tok g.tail htok (validRNG_tail hg)
  · exact ⟨tok, g.tail, rfl, validRNG_tail hg⟩

theorem typoPhase_total (tok : Word) (g : RNG) (hg : validRNG g) :
    ∃ t' g', typoPhase tok g = some (t', g') ∧ validRNG g' := by
  unfold typoPhase
  dsimp only [randFloat]
  split
  · exact inject_typo_total tok g.tail (validRNG_tail hg)
  · exact ⟨tok, g.tail, rfl, validRNG_tail hg⟩

theorem processToken_total (stop : Word → Bool) (wn : Word → List Word)
    (tok : Word) (g : RNG) (hg : validRNG g) :
    ∃ t' g', processToken stop wn tok g = some (t', g') ∧ validRNG g' := by
  unfold processToken
  split
  · exact ⟨tok, g, rfl, hg⟩
  · split
    · exact ⟨tok, g, rfl, hg⟩
    · split
      · next helig =>
        have htok : tok ≠ [] := by
          intro hh
          rw [hh] at helig
          exact absurd helig.1 (by decide)
        obtain ⟨t1, g1, hsp, hg1⟩ := synPhase_total wn tok g htok hg
        rw [hsp]
        exact typoPhase_total t1 g1 hg1
      · exact ⟨tok, g, rfl, hg⟩

theorem transformTokens_total (stop : Word → Bool) (wn : Word → List Word) :
    ∀ (tokens : List Word) (g : RNG), validRNG g →
      ∃ out g', transformTokens stop wn tokens g = some (out, g') ∧
        validRNG g' := by
  intro tokens
  induction tokens with
  | nil => exact fun g hg => ⟨[], g, rfl, hg⟩
  | cons t rest ih =>
    intro g hg
    obtain ⟨t', g1, hp, hg1⟩ := processToken_total stop wn t g hg
    obtain ⟨rest', g2, ht, hg2⟩ := ih g1 hg1
    refine ⟨t' :: rest', g2, ?_, hg2⟩
    unfold transformTokens
    rw [hp]
    dsimp only
    rw [ht]

/-- C9: Totality — `custom_transform` never raises an exception on any
input example: malformed input takes the early-return guard, a missing
synonym or neighbor degrades to a token-level no-op, and every internal
string index access and `random.choice` call of the embedding succeeds
(the checked, `Option`-valued embedding returns `some` for every input
and every stream of draws in `[0,1)`). -/
theorem custom_transform_never_fails {L : Type} (tokenize : Word → List Word)
    (detok : List Word → Word) (stop : Word → Bool) (wn : Word → List Word)
    (ex : Example L) (g : RNG) (hg : validRNG g) :
    (custom_transform tokenize detok stop wn ex g).isSome = true := by
  unfold custom_transform
  split
  · rfl
  · rfl
  · next s heq =>
    split
    · rfl
    · obtain ⟨out, g', h, -⟩ := transformTokens_total stop wn (tokenize s) g hg
      rw [h]
      rfl

theorem custom_transform_never_fails_wit :
    (custom_transform tok0 detok0 stop0 wn0 ex0 []).isSome = true :=
  custom_transform_never_fails tok0 detok0 stop0 wn0 ex0 [] validRNG_nil
